import Mathlib

/-!
Shallow embedding of `secure_the_bag.py` and `unwind_the_bag.py` from the
secure-the-mint repository.

Modelling choices:
* `bytes32` values are modelled by the symbolic datatype `B32` whose
  constructors play the role of the hash functions the code applies
  (`Program.get_tree_hash` on the quoted condition-list programs it builds,
  and the `sha256(parent_coin_info, puzzle_hash, amount)` of `Coin.name`),
  treated as ideal injective hashes.
* amounts are `Nat`; the `uint64` range checks of chia are not modelled
  (amounts are assumed to stay below `2 ^ 64`, where `uint64` is the identity).
* Python dictionaries (`parent_puzzle_lookup`) are association lists where the
  most recent assignment shadows older entries, exactly dict-assignment
  semantics for `get`.
* the unbounded recursions of `secure_the_bag`, `parent_of_puzzle_hash` and
  the `while True`-walk of `get_unwind` carry an explicit fuel parameter;
  `none` means the Python code would still be running after that many steps.
-/

namespace SecureTheMint

/-- Symbolic 32-byte strings.  `raw` is an arbitrary externally supplied value
(a leaf puzzle hash or a genesis coin id); `coinHash` is
`Coin.name = sha256(parent_coin_info + puzzle_hash + amount)`; the remaining
constructors Merkle-encode the tree hash of the quoted condition-list
programs built by `secure_the_bag` (`Program.to((1, conditions))`), one
constructor per condition-list cell, so that equal hashes come from equal
programs (ideal collision-free hashing). -/
inductive B32 where
  | raw : Nat → B32
  | coinHash : B32 → B32 → Nat → B32
  | hNil : B32
  | hAnnounce : B32 → B32
  | hCreateCoin : B32 → Nat → B32 → B32 → B32
  | hMemoNil : B32
  | hMemoCons : B32 → B32 → B32
deriving DecidableEq

/-- Conditions appearing in the programs `secure_the_bag` constructs:
`[ConditionOpcode.CREATE_COIN_ANNOUNCEMENT, b"$"]` (a fixed constant) and
`[ConditionOpcode.CREATE_COIN, puzzle_hash, amount, memos]`. -/
inductive Cond where
  | announce : Cond
  | createCoin : B32 → Nat → List B32 → Cond
deriving DecidableEq

/-- The fixed announcement condition `EMPTY_COIN_ANNOUNCEMENT` of
`secure_the_bag.py`. -/
def EMPTY_COIN_ANNOUNCEMENT : Cond := .announce

/-- The programs the tree builder constructs: `Program.to((1, conds))`, i.e.
the quotation of a condition list. -/
structure Prog where
  conds : List Cond
deriving DecidableEq

/-- Running a quoted program `(1 . conds)` returns `conds` whatever the
solution is. -/
def Prog.run (p : Prog) (_sol : Prog) : List Cond := p.conds

/-- The empty solution `Program.to([])`. -/
def nilSolution : Prog := ⟨[]⟩

/-- Merkle encoding of a memo list. -/
def memoHash : List B32 → B32
  | [] => .hMemoNil
  | m :: rest => .hMemoCons m (memoHash rest)

/-- Merkle encoding of a condition list. -/
def condsHash : List Cond → B32
  | [] => .hNil
  | .announce :: rest => .hAnnounce (condsHash rest)
  | .createCoin ph amt memos :: rest => .hCreateCoin ph amt (memoHash memos) (condsHash rest)

/-- `Program.get_tree_hash` on the quoted programs built here. -/
def Prog.get_tree_hash (p : Prog) : B32 := condsHash p.conds

/-- `Target`: a leaf destination, a puzzle hash plus an amount. -/
structure Target where
  puzzle_hash : B32
  amount : Nat
deriving DecidableEq

/-- `Target.create_coin_condition`:
`[ConditionOpcode.CREATE_COIN, self.puzzle_hash, self.amount, [self.puzzle_hash]]`. -/
def Target.create_coin_condition (t : Target) : Cond :=
  .createCoin t.puzzle_hash t.amount [t.puzzle_hash]

/-- `TargetCoin`: the value stored in `parent_puzzle_lookup`. -/
structure TargetCoin where
  target : Target
  puzzle : Prog
  puzzle_hash : B32
  amount : Nat
deriving DecidableEq

/-- The `TargetCoin.__init__` constructor: `puzzle_hash` is derived as
`puzzle.get_tree_hash()`. -/
def mkTargetCoin (target : Target) (puzzle : Prog) (amount : Nat) : TargetCoin :=
  ⟨target, puzzle, puzzle.get_tree_hash, amount⟩

/-- `Coin` from `chia.types.blockchain_format.coin`, restricted to the fields
the code uses. -/
structure Coin where
  parent_coin_info : B32
  puzzle_hash : B32
  amount : Nat
deriving DecidableEq

/-- `Coin.name() = sha256(parent_coin_info + puzzle_hash + amount)`. -/
def Coin.name (c : Coin) : B32 := .coinHash c.parent_coin_info c.puzzle_hash c.amount

/-- `CoinSpend`: a coin, its puzzle reveal and a solution. -/
structure CoinSpend where
  coin : Coin
  puzzle_reveal : Prog
  solution : Prog
deriving DecidableEq

/-- `parent_puzzle_lookup : Dict[str, TargetCoin]`, keyed by the hex encoding
of a puzzle hash (hex is injective, so we key by the hash itself).  Assignment
conses in front; `get` takes the most recent binding, which is exactly Python
dict semantics. -/
abbrev Lookup := List (B32 × TargetCoin)

/-- Dictionary read `parent_puzzle_lookup.get(key)`. -/
def lookupGet : Lookup → B32 → Option TargetCoin
  | [], _ => none
  | (k, v) :: rest, h => if h = k then some v else lookupGet rest h

/-- Dictionary assignment `parent_puzzle_lookup[key] = value`. -/
def lookupSet (L : Lookup) (k : B32) (v : TargetCoin) : Lookup := (k, v) :: L

/-- `batch_the_bag`'s loop: `cur` is `current_batch`; a batch is flushed when
it reaches `leaf_width` elements or the input is exhausted. -/
def batchGo (leaf_width : Nat) : List α → List α → List (List α)
  | [], _cur => []
  | [t], cur => [cur ++ [t]]
  | t :: t' :: rest, cur =>
    let cur' := cur ++ [t]
    if cur'.length = leaf_width then cur' :: batchGo leaf_width (t' :: rest) []
    else batchGo leaf_width (t' :: rest) cur'

/-- `batch_the_bag(targets, leaf_width)`. -/
def batch_the_bag (targets : List α) (leaf_width : Nat) : List (List α) :=
  batchGo leaf_width targets []

/-- The condition list built for one batch: start from
`[EMPTY_COIN_ANNOUNCEMENT]` and append `target.create_coin_condition()` for
each batch member in order. -/
def batchConditions (batch : List Target) : List Cond :=
  batch.foldl (fun acc t => acc ++ [t.create_coin_condition]) [EMPTY_COIN_ANNOUNCEMENT]

/-- The accumulated `total_amount` of one batch. -/
def batchTotalAmount (batch : List Target) : Nat :=
  batch.foldl (fun acc t => acc + t.amount) 0

/-- The body of `secure_the_bag`'s `for batch_targets in batched_targets`
loop: build the quoted program and summed amount of each batch, collect the
one new `Target` per batch, and record every batch member in the lookup
table. -/
def processBatchesLoop : List (List Target) → Lookup → List Target × Lookup
  | [], L => ([], L)
  | batch :: rest, L =>
    let puzzle : Prog := ⟨batchConditions batch⟩
    let amount := batchTotalAmount batch
    let L' := batch.foldl
      (fun acc t => lookupSet acc t.puzzle_hash (mkTargetCoin t puzzle amount)) L
    let r := processBatchesLoop rest L'
    (⟨puzzle.get_tree_hash, amount⟩ :: r.1, r.2)

/-- `secure_the_bag(targets, leaf_width, parent_puzzle_lookup)` with fuel
counting recursion depth; `none` means the Python recursion would still be
running after `fuel` levels. -/
def secure_the_bag : Nat → List Target → Nat → Lookup → Option (B32 × Lookup)
  | 0, _, _, _ => none
  | fuel + 1, targets, leaf_width, parent_puzzle_lookup =>
    match targets with
    | [t] => some (t.puzzle_hash, parent_puzzle_lookup)
    | ts =>
      let r := processBatchesLoop (batch_the_bag ts leaf_width) parent_puzzle_lookup
      secure_the_bag fuel r.1 leaf_width r.2

/-- `parent_of_puzzle_hash(genesis_coin_name, puzzle_hash, lookup)` with fuel
counting recursion depth. -/
def parentOfFuel : Nat → B32 → B32 → Lookup → Option (Option CoinSpend × B32)
  | 0, _, _, _ => none
  | fuel + 1, genesis_coin_name, puzzle_hash, parent_puzzle_lookup =>
    match lookupGet parent_puzzle_lookup puzzle_hash with
    | none => some (none, genesis_coin_name)
    | some parent =>
      match parentOfFuel fuel genesis_coin_name parent.puzzle_hash parent_puzzle_lookup with
      | none => none
      | some (_, parent_coin_info) =>
        let coin : Coin := ⟨parent_coin_info, parent.puzzle_hash,
          if parent_coin_info = genesis_coin_name then 0 else parent.amount⟩
        some (some ⟨coin, parent.puzzle, nilSolution⟩, coin.name)

/-- Structural rank of a symbolic hash value. -/
def rank : B32 → Nat
  | .raw _ => 0
  | .coinHash p q _ => max (rank p) (rank q) + 1
  | .hNil => 0
  | .hAnnounce r => rank r + 1
  | .hCreateCoin ph _ m r => max (rank ph) (max (rank m) (rank r)) + 1
  | .hMemoNil => 0
  | .hMemoCons m r => max (rank m) (rank r) + 1

/-- Upper bound on the ranks of the parent puzzle hashes stored in a lookup
table; walking from any key to its parent can happen at most this many times
plus one on a table whose entries strictly increase rank. -/
def keyValBound : Lookup → Nat
  | [] => 0
  | e :: rest => max (rank e.2.puzzle_hash) (keyValBound rest)

/-- Total version of `parent_of_puzzle_hash`: for every table built by
`secure_the_bag` the fuel `keyValBound L + 2` is sufficient (proved below), so
on those tables this function is the Python function. -/
def parent_of_puzzle_hash (genesis_coin_name puzzle_hash : B32) (L : Lookup) :
    Option (Option CoinSpend × B32) :=
  parentOfFuel (keyValBound L + 2) genesis_coin_name puzzle_hash L

/-- `LedgerCoinState`: what `get_coin_record_by_name` reports about one coin.
`unknown` is a `None` record, `unspent` is `spent_block_index == 0`, `spent`
is a positive `spent_block_index`. -/
inductive CoinState where
  | unknown : CoinState
  | unspent : CoinState
  | spent : CoinState
deriving DecidableEq

/-- The full node, abstracted to the one query `get_unwind` makes. -/
abbrev Ledger := B32 → CoinState

/-- The `while True` walk of `get_unwind`, with fuel counting iterations.
The returned Bool records whether the `WARNING: Lowest coin is spent` branch
was taken (the warning is printed and the walk returns normally).  The
`if current_puzzle_hash is None` break of the source is dead code under its
types (a coin's puzzle hash is never `None`) and has no counterpart here. -/
def getUnwindFuel : Nat → Ledger → B32 → Lookup → B32 → Option (List CoinSpend × Bool)
  | 0, _, _, _, _ => none
  | fuel + 1, led, genesis_coin_id, parent_puzzle_lookup, current_puzzle_hash =>
    match parent_of_puzzle_hash genesis_coin_id current_puzzle_hash parent_puzzle_lookup with
    | none => none
    | some (none, _) => some ([], false)
    | some (some coin_spend, _) =>
      match led coin_spend.coin.name with
      | .unknown =>
        (getUnwindFuel fuel led genesis_coin_id parent_puzzle_lookup
            coin_spend.coin.puzzle_hash).map (fun r => (coin_spend :: r.1, r.2))
      | .unspent => some ([coin_spend], false)
      | .spent => some ([], true)

/-- Total version of `get_unwind`: on tables built by `secure_the_bag` the
walk visits puzzle hashes of strictly increasing rank, so `keyValBound L + 2`
iterations always suffice (proved below). -/
def get_unwind (led : Ledger) (genesis_coin_id : B32) (L : Lookup)
    (target_puzzle_hash : B32) : Option (List CoinSpend × Bool) :=
  getUnwindFuel (keyValBound L + 2) led genesis_coin_id L target_puzzle_hash

/-- `unwind_the_bag`: run `get_unwind` and reverse the resulting spend list
(the warning flag is only printed, not returned, by the source). -/
def unwind_the_bag (led : Ledger) (unwind_target_puzzle_hash_bytes genesis_coin_id : B32)
    (L : Lookup) : Option (List CoinSpend) :=
  (get_unwind led genesis_coin_id L unwind_target_puzzle_hash_bytes).map
    (fun r => r.1.reverse)

/-- Termination of the Python recursion: some fuel makes the run return. -/
def stbTerminates (targets : List Target) (leaf_width : Nat) (L : Lookup) : Prop :=
  ∃ fuel, (secure_the_bag fuel targets leaf_width L).isSome

/-! ### Concrete fixtures evaluated by the witnesses -/

/-- Three distinct leaf targets, mirroring the repository's own test data
shape (three leaves, width 2). -/
def exTargets : List Target := [⟨.raw 1, 10⟩, ⟨.raw 2, 20⟩, ⟨.raw 3, 30⟩]

def exRun : Option (B32 × Lookup) := secure_the_bag 3 exTargets 2 []

def exRoot : B32 := (exRun.getD (.raw 0, [])).1

def exLookup : Lookup := (exRun.getD (.raw 0, [])).2

def exGenesis : B32 := .raw 99

def exTC : TargetCoin :=
  (lookupGet exLookup (.raw 1)).getD (mkTargetCoin ⟨.raw 0, 0⟩ ⟨[]⟩ 0)

def exPair : Option CoinSpend × B32 :=
  (parent_of_puzzle_hash exGenesis (.raw 1) exLookup).getD (none, .raw 0)

def exCS : CoinSpend := exPair.1.getD ⟨⟨.raw 0, .raw 0, 0⟩, ⟨[]⟩, ⟨[]⟩⟩

/-- A ledger that has never observed any coin. -/
def ledUnknown : Ledger := fun _ => CoinState.unknown

def exUnwind : List CoinSpend :=
  (unwind_the_bag ledUnknown (.raw 1) exGenesis exLookup).getD []

def exRun2 : Option (B32 × Lookup) := secure_the_bag 5 exTargets 2 exLookup

def exRoot2 : B32 := (exRun2.getD (.raw 0, [])).1

def exLookup2 : Lookup := (exRun2.getD (.raw 0, [])).2

def exTs2 : List Target := [⟨.raw 4, 4⟩, ⟨.raw 5, 5⟩]

def exSharedRoot : B32 := ((secure_the_bag 2 exTs2 2 exLookup).getD (.raw 0, [])).1

def exSharedTable : Lookup := ((secure_the_bag 2 exTs2 2 exLookup).getD (.raw 0, [])).2

def exFreshTable : Lookup := ((secure_the_bag 2 exTs2 2 []).getD (.raw 0, [])).2

def dupA : Target := ⟨.raw 1, 1⟩

def dupB : Target := ⟨.raw 2, 2⟩

def dupC : Target := ⟨.raw 3, 3⟩

/-- A target list in which the puzzle hash of `dupA` lands in two different
batches, so its lookup entry is assigned twice with different parents. -/
def dupTargets : List Target := [dupA, dupB, dupA, dupC]

def dupRun : Option (B32 × Lookup) := secure_the_bag 3 dupTargets 2 []

def dupLookup : Lookup := (dupRun.getD (.raw 0, [])).2

/-- The parent recorded for the first batch `[dupA, dupB]`. -/
def dupParentAB : TargetCoin :=
  mkTargetCoin dupA ⟨batchConditions [dupA, dupB]⟩ (batchTotalAmount [dupA, dupB])

/-- The parent recorded for the second batch `[dupA, dupC]`. -/
def dupParentAC : TargetCoin :=
  mkTargetCoin dupA ⟨batchConditions [dupA, dupC]⟩ (batchTotalAmount [dupA, dupC])

/-- Two targets, used to exhibit the `leaf_width = 1` non-termination. -/
def w1Targets : List Target := [⟨.raw 1, 1⟩, ⟨.raw 2, 1⟩]

/-! ### Basic lemmas about the folds used per batch -/

theorem foldl_append_conds (batch : List Target) (init : List Cond) :
    batch.foldl (fun acc t => acc ++ [t.create_coin_condition]) init =
      init ++ batch.map Target.create_coin_condition := by
  induction batch generalizing init with
  | nil => simp
  | cons t rest ih => simp [List.foldl_cons, ih]

/-- The per-batch condition list is the announcement followed by one
`CREATE_COIN` condition per member, in input order. -/
theorem batchConditions_eq (batch : List Target) :
    batchConditions batch =
      Cond.announce :: batch.map Target.create_coin_condition := by
  simp [batchConditions, foldl_append_conds, EMPTY_COIN_ANNOUNCEMENT]

theorem foldl_add_amount (batch : List Target) (init : Nat) :
    batch.foldl (fun acc t => acc + t.amount) init =
      init + (batch.map Target.amount).sum := by
  induction batch generalizing init with
  | nil => simp
  | cons t rest ih => simp [List.foldl_cons, ih]; ring

/-- The accumulated `total_amount` is the sum of the members' amounts. -/
theorem batchTotalAmount_eq (batch : List Target) :
    batchTotalAmount batch = (batch.map Target.amount).sum := by
  simp [batchTotalAmount, foldl_add_amount]

/-! ### Lookup-table lemmas -/

theorem lookupGet_set_self (L : Lookup) (k : B32) (v : TargetCoin) :
    lookupGet (lookupSet L k v) k = some v := by
  simp [lookupGet, lookupSet]

theorem lookupGet_set_other (L : Lookup) (k k' : B32) (v : TargetCoin) (h : k' ≠ k) :
    lookupGet (lookupSet L k v) k' = lookupGet L k' := by
  simp [lookupGet, lookupSet, h]

/-- A successful `get` exhibits a pair physically present in the table. -/
theorem mem_of_lookupGet {L : Lookup} {k : B32} {tc : TargetCoin}
    (h : lookupGet L k = some tc) : (k, tc) ∈ L := by
  induction L with
  | nil => simp [lookupGet] at h
  | cons e rest ih =>
    by_cases hk : k = e.1
    · subst hk
      simp [lookupGet] at h
      subst h
      exact List.mem_cons_self _ _
    · simp [lookupGet, hk] at h
      exact List.mem_cons_of_mem _ (ih h)

theorem lookupGet_isSome_set {L : Lookup} {k' : B32} (k : B32) (v : TargetCoin)
    (h : (lookupGet L k').isSome) : (lookupGet (lookupSet L k v) k').isSome := by
  by_cases hk : k' = k
  · subst hk; simp [lookupGet_set_self]
  · rwa [lookupGet_set_other _ _ _ _ hk]

/-! ### Lemmas about `batch_the_bag` -/

theorem batchGo_ne_nil (w : Nat) (ts cur : List α) (h : ts ≠ []) :
    batchGo w ts cur ≠ [] := by
  match ts with
  | [] => exact absurd rfl h
  | [t] => simp [batchGo]
  | t :: t' :: rest =>
    rw [batchGo]
    by_cases hw : (cur ++ [t]).length = w
    · simp [hw]
    · simp only [hw, if_false]
      exact batchGo_ne_nil w (t' :: rest) (cur ++ [t]) (by simp)

/-- Core invariant of the batching loop: it partitions `cur ++ ts`, every
batch flushed before the end has exactly `w` elements, and every batch is
nonempty with at most `w` elements. -/
theorem batchGo_spec (w : Nat) (ts cur : List α) (hts : ts ≠ [])
    (hcur : cur.length < w) :
    (batchGo w ts cur).flatten = cur ++ ts ∧
      (∀ b ∈ (batchGo w ts cur).dropLast, b.length = w) ∧
      (∀ b ∈ batchGo w ts cur, 1 ≤ b.length ∧ b.length ≤ w) := by
  match ts with
  | [] => exact absurd rfl hts
  | [t] =>
    refine ⟨by simp [batchGo], by simp [batchGo], ?_⟩
    intro b hb
    simp [batchGo] at hb
    subst hb
    simp
    omega
  | t :: t' :: rest =>
    rw [batchGo]
    by_cases hw : (cur ++ [t]).length = w
    · simp only [hw, if_true]
      have h0 : (0 : Nat) < w := by
        have : 1 ≤ (cur ++ [t]).length := by simp
        omega
      obtain ⟨hj, hd, hall⟩ := batchGo_spec w (t' :: rest) [] (by simp) h0
      refine ⟨by simp [hj], ?_, ?_⟩
      · intro b hb
        rw [List.dropLast_cons_of_ne_nil (batchGo_ne_nil w (t' :: rest) [] (by simp))] at hb
        rcases List.mem_cons.mp hb with h | h
        · subst h; exact hw
        · exact hd b h
      · intro b hb
        rcases List.mem_cons.mp hb with h | h
        · subst h; exact ⟨by simp, le_of_eq hw⟩
        · exact hall b h
    · simp only [hw, if_false]
      have hlt : (cur ++ [t]).length < w := by
        have : (cur ++ [t]).length = cur.length + 1 := by simp
        omega
      obtain ⟨hj, hd, hall⟩ := batchGo_spec w (t' :: rest) (cur ++ [t]) (by simp) hlt
      exact ⟨by simp [hj], hd, hall⟩

/-- With width at least 2, the loop produces at most `(input + cur + 1) / 2`
batches: each batch but the last consumes at least two elements. -/
theorem batchGo_count (w : Nat) (hw : 2 ≤ w) (ts cur : List α) :
    (batchGo w ts cur).length * 2 ≤ ts.length + cur.length + 1 := by
  match ts with
  | [] => simp [batchGo]
  | [t] => simp [batchGo]
  | t :: t' :: rest =>
    rw [batchGo]
    by_cases hwl : (cur ++ [t]).length = w
    · simp only [hwl, if_true]
      have h := batchGo_count w hw (t' :: rest) []
      have hcl : cur.length + 1 = w := by
        have : (cur ++ [t]).length = cur.length + 1 := by simp
        omega
      simp at h ⊢
      omega
    · simp only [hwl, if_false]
      have h := batchGo_count w hw (t' :: rest) (cur ++ [t])
      simp at h ⊢
      omega

/-! ### Lemmas about `processBatchesLoop` and `secure_the_bag` -/

/-- The new targets collected by the batch loop do not depend on the lookup
table: one target per batch, carrying the batch program's tree hash and the
batch total. -/
theorem processBatchesLoop_fst (bs : List (List Target)) (L : Lookup) :
    (processBatchesLoop bs L).1 =
      bs.map (fun b => (⟨condsHash (batchConditions b), batchTotalAmount b⟩ : Target)) := by
  induction bs generalizing L with
  | nil => simp [processBatchesLoop]
  | cons b rest ih => simp [processBatchesLoop, ih, Prog.get_tree_hash]

theorem processBatchesLoop_length (bs : List (List Target)) (L : Lookup) :
    (processBatchesLoop bs L).1.length = bs.length := by
  simp [processBatchesLoop_fst]

theorem secure_the_bag_zero (ts : List Target) (w : Nat) (L : Lookup) :
    secure_the_bag 0 ts w L = none := rfl

theorem secure_the_bag_one (f : Nat) (t : Target) (w : Nat) (L : Lookup) :
    secure_the_bag (f + 1) [t] w L = some (t.puzzle_hash, L) := rfl

theorem secure_the_bag_nil (f : Nat) (w : Nat) (L : Lookup) :
    secure_the_bag (f + 1) [] w L = secure_the_bag f [] w L := rfl

theorem secure_the_bag_step (f : Nat) (a b : Target) (rest : List Target) (w : Nat)
    (L : Lookup) :
    secure_the_bag (f + 1) (a :: b :: rest) w L =
      secure_the_bag f
        (processBatchesLoop (batch_the_bag (a :: b :: rest) w) L).1 w
        (processBatchesLoop (batch_the_bag (a :: b :: rest) w) L).2 := rfl

/-- Fuel monotonicity: a run that finishes within `f` levels finishes with the
same result given more fuel. -/
theorem secure_the_bag_mono {f : Nat} {ts : List Target} {w : Nat} {L : Lookup}
    {x : B32 × Lookup} (h : secure_the_bag f ts w L = some x) :
    secure_the_bag (f + 1) ts w L = some x := by
  induction f generalizing ts L with
  | zero => simp [secure_the_bag_zero] at h
  | succ f ih =>
    match ts with
    | [] =>
      rw [secure_the_bag_nil] at h
      rw [secure_the_bag_nil]
      exact ih h
    | [t] => exact h
    | a :: b :: rest =>
      rw [secure_the_bag_step] at h
      rw [secure_the_bag_step]
      exact ih h

theorem secure_the_bag_mono_le {f f' : Nat} {ts : List Target} {w : Nat} {L : Lookup}
    {x : B32 × Lookup} (hle : f ≤ f') (h : secure_the_bag f ts w L = some x) :
    secure_the_bag f' ts w L = some x := by
  induction f' with
  | zero =>
    have : f = 0 := Nat.le_zero.mp hle
    subst this; exact h
  | succ f' ih =>
    rcases Nat.lt_or_ge f (f' + 1) with hlt | hge
    · exact secure_the_bag_mono (ih (Nat.lt_succ_iff.mp hlt))
    · have : f = f' + 1 := Nat.le_antisymm hle hge
      subst this; exact h

/-- The root hash computed by `secure_the_bag` does not depend on the lookup
table that was passed in. -/
theorem secure_the_bag_fst_indep (f : Nat) (ts : List Target) (w : Nat)
    (L1 L2 : Lookup) :
    (secure_the_bag f ts w L1).map Prod.fst = (secure_the_bag f ts w L2).map Prod.fst := by
  induction f generalizing ts L1 L2 with
  | zero => simp [secure_the_bag_zero]
  | succ f ih =>
    match ts with
    | [] => rw [secure_the_bag_nil, secure_the_bag_nil]; exact ih [] L1 L2
    | [t] => rw [secure_the_bag_one, secure_the_bag_one]; rfl
    | a :: b :: rest =>
      rw [secure_the_bag_step, secure_the_bag_step]
      have hfst : (processBatchesLoop (batch_the_bag (a :: b :: rest) w) L1).1 =
          (processBatchesLoop (batch_the_bag (a :: b :: rest) w) L2).1 := by
        rw [processBatchesLoop_fst, processBatchesLoop_fst]
      rw [hfst]
      exact ih _ _ _

/-- With width at least 2 and a nonempty target list, fuel equal to the number
of targets suffices: each level strictly shrinks the list. -/
theorem secure_the_bag_isSome (f : Nat) (ts : List Target) (w : Nat) (L : Lookup)
    (hw : 2 ≤ w) (hne : 1 ≤ ts.length) (hf : ts.length ≤ f) :
    (secure_the_bag f ts w L).isSome := by
  induction f generalizing ts L with
  | zero => omega
  | succ f ih =>
    match ts with
    | [] => simp at hne
    | [t] => rw [secure_the_bag_one]; rfl
    | a :: b :: rest =>
      rw [secure_the_bag_step]
      set bs := batch_the_bag (a :: b :: rest) w with hbs
      have hcount : bs.length * 2 ≤ (a :: b :: rest).length + 1 := by
        have := batchGo_count w hw (a :: b :: rest) []
        simpa [batch_the_bag] using this
      have hbs1 : 1 ≤ bs.length := by
        have := batchGo_ne_nil w (a :: b :: rest) [] (by simp)
        have : bs ≠ [] := this
        exact List.length_pos.mpr this
      have hlen : (processBatchesLoop bs L).1.length = bs.length :=
        processBatchesLoop_length bs L
      apply ih
      · rw [hlen]; exact hbs1
      · rw [hlen]
        have h2 : 2 ≤ (a :: b :: rest).length := by simp
        omega

/-- With width 1 a list of two targets is rebatched into two fresh targets at
every level: the recursion never reaches the base case. -/
theorem secure_the_bag_w1_len2 (f : Nat) (ts : List Target) (L : Lookup)
    (h2 : ts.length = 2) : secure_the_bag f ts 1 L = none := by
  induction f generalizing ts L with
  | zero => rfl
  | succ f ih =>
    match ts with
    | a :: b :: rest =>
      have hrest : rest = [] := by simpa using h2
      subst hrest
      rw [secure_the_bag_step]
      apply ih
      have : batch_the_bag [a, b] 1 = [[a], [b]] := by
        simp [batch_the_bag, batchGo]
      rw [processBatchesLoop_length, this]
      rfl

/-! ### Lookup growth: `secure_the_bag` only ever adds entries -/

theorem lookupGet_isSome_foldl {β : Type} (key : β → B32) (val : β → TargetCoin)
    (l : List β) (L : Lookup) (k : B32) (h : (lookupGet L k).isSome) :
    (lookupGet (l.foldl (fun acc x => lookupSet acc (key x) (val x)) L) k).isSome := by
  induction l generalizing L with
  | nil => exact h
  | cons x rest ih => exact ih _ (lookupGet_isSome_set _ _ h)

theorem processBatchesLoop_lookup_mono (bs : List (List Target)) (L : Lookup) (k : B32)
    (h : (lookupGet L k).isSome) :
    (lookupGet (processBatchesLoop bs L).2 k).isSome := by
  induction bs generalizing L with
  | nil => exact h
  | cons b rest ih =>
    exact ih _ (lookupGet_isSome_foldl (fun t => t.puzzle_hash) _ b L k h)

/-- Every key present in the table passed to `secure_the_bag` is still present
in the table it returns. -/
theorem secure_the_bag_lookup_mono {f : Nat} {ts : List Target} {w : Nat} {L : Lookup}
    {r : B32} {L' : Lookup} (h : secure_the_bag f ts w L = some (r, L')) (k : B32)
    (hk : (lookupGet L k).isSome) : (lookupGet L' k).isSome := by
  induction f generalizing ts L with
  | zero => simp [secure_the_bag_zero] at h
  | succ f ih =>
    match ts with
    | [] => rw [secure_the_bag_nil] at h; exact ih h hk
    | [t] =>
      rw [secure_the_bag_one] at h
      cases h
      exact hk
    | a :: b :: rest =>
      rw [secure_the_bag_step] at h
      exact ih h (processBatchesLoop_lookup_mono _ _ _ hk)

/-! ### Rank: the lookup tables built by `secure_the_bag` map every key to a
parent whose puzzle hash has strictly larger rank, which bounds the ancestor
walks of `parent_of_puzzle_hash` and `get_unwind`. -/

/-- Well-formedness of a lookup table: every stored parent's puzzle hash has
strictly larger rank than its key. -/
abbrev RankOK (L : Lookup) : Prop := ∀ e ∈ L, rank e.1 < rank e.2.puzzle_hash

theorem rank_le_keyValBound {L : Lookup} {e : B32 × TargetCoin} (h : e ∈ L) :
    rank e.2.puzzle_hash ≤ keyValBound L := by
  induction L with
  | nil => simp at h
  | cons e' rest ih =>
    rcases List.mem_cons.mp h with h' | h'
    · subst h'; simp [keyValBound]
    · calc rank e.2.puzzle_hash ≤ keyValBound rest := ih h'
        _ ≤ keyValBound (e' :: rest) := le_max_right _ _

theorem rank_lt_condsHash_map {batch : List Target} {t : Target} (h : t ∈ batch) :
    rank t.puzzle_hash <
      rank (condsHash (batch.map Target.create_coin_condition)) := by
  induction batch with
  | nil => simp at h
  | cons t' rest ih =>
    rcases List.mem_cons.mp h with h' | h'
    · subst h'
      simp [condsHash, Target.create_coin_condition, rank]
      omega
    · have := ih h'
      simp [condsHash, Target.create_coin_condition, rank]
      omega

/-- Each batch member's puzzle hash has strictly smaller rank than the tree
hash of the batch program it is recorded under. -/
theorem rank_lt_batchConditions {batch : List Target} {t : Target} (h : t ∈ batch) :
    rank t.puzzle_hash < rank (condsHash (batchConditions batch)) := by
  rw [batchConditions_eq]
  have := rank_lt_condsHash_map h
  simp [condsHash, rank]
  omega

theorem RankOK_set {L : Lookup} {k : B32} {v : TargetCoin} (hL : RankOK L)
    (hv : rank k < rank v.puzzle_hash) : RankOK (lookupSet L k v) := by
  intro e he
  rcases List.mem_cons.mp he with h' | h'
  · subst h'; exact hv
  · exact hL e h'

theorem RankOK_foldl_batch {batch sub : List Target} {amount : Nat} {L : Lookup}
    (hL : RankOK L) (hsub : ∀ t ∈ sub, t ∈ batch) :
    RankOK (sub.foldl
      (fun acc t => lookupSet acc t.puzzle_hash
        (mkTargetCoin t ⟨batchConditions batch⟩ amount)) L) := by
  induction sub generalizing L with
  | nil => exact hL
  | cons t rest ih =>
    refine ih ?_ (fun t' ht' => hsub t' (List.mem_cons_of_mem _ ht'))
    refine RankOK_set hL ?_
    show rank t.puzzle_hash < rank (Prog.get_tree_hash ⟨batchConditions batch⟩)
    exact rank_lt_batchConditions (hsub t (List.mem_cons_self _ _))

theorem RankOK_processBatchesLoop {bs : List (List Target)} {L : Lookup}
    (hL : RankOK L) : RankOK (processBatchesLoop bs L).2 := by
  induction bs generalizing L with
  | nil => exact hL
  | cons b rest ih =>
    exact ih (RankOK_foldl_batch hL (fun t ht => ht))

/-- The tables returned by `secure_the_bag` are rank-well-formed whenever the
table passed in is (in particular when starting from the empty table). -/
theorem RankOK_secure_the_bag {f : Nat} {ts : List Target} {w : Nat} {L : Lookup}
    {r : B32} {L' : Lookup} (hL : RankOK L) (h : secure_the_bag f ts w L = some (r, L')) :
    RankOK L' := by
  induction f generalizing ts L with
  | zero => simp [secure_the_bag_zero] at h
  | succ f ih =>
    match ts with
    | [] => rw [secure_the_bag_nil] at h; exact ih hL h
    | [t] =>
      rw [secure_the_bag_one] at h
      cases h
      exact hL
    | a :: b :: rest =>
      rw [secure_the_bag_step] at h
      exact ih (RankOK_processBatchesLoop hL) h

/-! ### Lemmas about `parent_of_puzzle_hash` -/

theorem parentOfFuel_succ_none {L : Lookup} {ph : B32} (g : B32) (f : Nat)
    (h : lookupGet L ph = none) :
    parentOfFuel (f + 1) g ph L = some (none, g) := by
  simp [parentOfFuel, h]

theorem parentOfFuel_succ_some {L : Lookup} {ph : B32} {p : TargetCoin} {g : B32}
    {f : Nat} {s : Option CoinSpend} {pci : B32} (hget : lookupGet L ph = some p)
    (hrec : parentOfFuel f g p.puzzle_hash L = some (s, pci)) :
    parentOfFuel (f + 1) g ph L =
      some (some ⟨⟨pci, p.puzzle_hash, if pci = g then 0 else p.amount⟩, p.puzzle,
          nilSolution⟩,
        Coin.name ⟨pci, p.puzzle_hash, if pci = g then 0 else p.amount⟩) := by
  simp [parentOfFuel, hget, hrec]

theorem parentOfFuel_succ_stuck {L : Lookup} {ph : B32} {p : TargetCoin} {g : B32}
    {f : Nat} (hget : lookupGet L ph = some p)
    (hrec : parentOfFuel f g p.puzzle_hash L = none) :
    parentOfFuel (f + 1) g ph L = none := by
  simp [parentOfFuel, hget, hrec]

/-- Fuel monotonicity for the ancestor resolver. -/
theorem parentOfFuel_mono {f : Nat} {g ph : B32} {L : Lookup}
    {x : Option CoinSpend × B32} (h : parentOfFuel f g ph L = some x) :
    parentOfFuel (f + 1) g ph L = some x := by
  induction f generalizing ph x with
  | zero => simp [parentOfFuel] at h
  | succ f ih =>
    rcases hget : lookupGet L ph with _ | p
    · rw [parentOfFuel_succ_none g (f + 1) hget]
      rw [parentOfFuel_succ_none g f hget] at h
      exact h.symm ▸ rfl
    · rcases hrec : parentOfFuel f g p.puzzle_hash L with _ | y
      · rw [parentOfFuel_succ_stuck hget hrec] at h
        exact absurd h (by simp)
      · obtain ⟨s, pci⟩ := y
        rw [parentOfFuel_succ_some hget hrec] at h
        rw [parentOfFuel_succ_some hget (ih hrec)]
        exact h

theorem parentOfFuel_mono_le {f f' : Nat} {g ph : B32} {L : Lookup}
    {x : Option CoinSpend × B32} (hle : f ≤ f') (h : parentOfFuel f g ph L = some x) :
    parentOfFuel f' g ph L = some x := by
  induction f' with
  | zero =>
    have : f = 0 := Nat.le_zero.mp hle
    subst this; exact h
  | succ f' ih =>
    rcases Nat.lt_or_ge f (f' + 1) with hlt | hge
    · exact parentOfFuel_mono (ih (Nat.lt_succ_iff.mp hlt))
    · have : f = f' + 1 := Nat.le_antisymm hle hge
      subst this; exact h

/-- Inversion: a successful resolution returning a spend comes from a table
hit, the spend's coin is rebuilt from the recursively resolved parent
identity, and the returned identity is that coin's name. -/
theorem parentOfFuel_inv {f : Nat} {g ph : B32} {L : Lookup} {cs : CoinSpend} {nm : B32}
    (h : parentOfFuel f g ph L = some (some cs, nm)) :
    ∃ f' p s pci, f = f' + 1 ∧ lookupGet L ph = some p ∧
      parentOfFuel f' g p.puzzle_hash L = some (s, pci) ∧
      cs = ⟨⟨pci, p.puzzle_hash, if pci = g then 0 else p.amount⟩, p.puzzle,
        nilSolution⟩ ∧
      nm = cs.coin.name := by
  cases f with
  | zero => simp [parentOfFuel] at h
  | succ f' =>
    rcases hget : lookupGet L ph with _ | p
    · rw [parentOfFuel_succ_none g f' hget] at h
      simp at h
    · rcases hrec : parentOfFuel f' g p.puzzle_hash L with _ | y
      · rw [parentOfFuel_succ_stuck hget hrec] at h
        exact absurd h (by simp)
      · obtain ⟨s, pci⟩ := y
        rw [parentOfFuel_succ_some hget hrec] at h
        simp only [Option.some.injEq, Prod.mk.injEq] at h
        obtain ⟨h1, h2⟩ := h
        subst h1
        exact ⟨f', p, s, pci, rfl, rfl, hrec, rfl, h2.symm⟩

/-- On a rank-well-formed table the resolver terminates: every recursive step
strictly increases the rank of the puzzle hash being resolved, and all ranks
reachable through the table are bounded by `keyValBound`. -/
theorem parentOfFuel_isSome {L : Lookup} (hR : RankOK L) (f : Nat) :
    ∀ (ph g : B32), keyValBound L + 2 ≤ f + rank ph → 1 ≤ f →
      (parentOfFuel f g ph L).isSome := by
  induction f with
  | zero => intro ph g _ h1; omega
  | succ f ih =>
    intro ph g hbound _
    rcases hget : lookupGet L ph with _ | p
    · rw [parentOfFuel_succ_none g f hget]; rfl
    · have hmem := mem_of_lookupGet hget
      have hlt : rank ph < rank p.puzzle_hash := hR _ hmem
      have hub : rank p.puzzle_hash ≤ keyValBound L := rank_le_keyValBound hmem
      have hrec : (parentOfFuel f g p.puzzle_hash L).isSome := by
        refine ih p.puzzle_hash g (by omega) (by omega)
      rcases hrec' : parentOfFuel f g p.puzzle_hash L with _ | y
      · rw [hrec'] at hrec; simp at hrec
      · obtain ⟨s, pci⟩ := y
        rw [parentOfFuel_succ_some hget hrec']
        rfl

/-- On a rank-well-formed table a puzzle hash missing from the table resolves
to no spend and the genesis reference verbatim. -/
theorem parent_of_puzzle_hash_none {L : Lookup} {ph : B32} (g : B32)
    (hget : lookupGet L ph = none) :
    parent_of_puzzle_hash g ph L = some (none, g) :=
  parentOfFuel_succ_none g (keyValBound L + 1) hget

/-- On a rank-well-formed table a puzzle hash with an entry resolves to a
spend of the recorded parent coin: the recursively resolved grandparent
identity is folded into the coin, the amount is zeroed exactly at the genesis
boundary, and the returned identity is the coin's name. -/
theorem parent_of_puzzle_hash_some {L : Lookup} {ph : B32} {p : TargetCoin} (g : B32)
    (hR : RankOK L) (hget : lookupGet L ph = some p) :
    ∃ s pci, parent_of_puzzle_hash g p.puzzle_hash L = some (s, pci) ∧
      parent_of_puzzle_hash g ph L =
        some (some ⟨⟨pci, p.puzzle_hash, if pci = g then 0 else p.amount⟩, p.puzzle,
            nilSolution⟩,
          B32.coinHash pci p.puzzle_hash (if pci = g then 0 else p.amount)) := by
  have hmem := mem_of_lookupGet hget
  have hlt : rank ph < rank p.puzzle_hash := hR _ hmem
  have hrec : (parentOfFuel (keyValBound L + 1) g p.puzzle_hash L).isSome := by
    refine parentOfFuel_isSome hR _ p.puzzle_hash g (by omega) (by omega)
  rcases hrec' : parentOfFuel (keyValBound L + 1) g p.puzzle_hash L with _ | y
  · rw [hrec'] at hrec; simp at hrec
  · obtain ⟨s, pci⟩ := y
    refine ⟨s, pci, parentOfFuel_mono hrec', ?_⟩
    show parentOfFuel (keyValBound L + 1 + 1) g ph L = _
    rw [parentOfFuel_succ_some hget hrec']
    rfl

/-! ### Lemmas about the `get_unwind` walk -/

theorem getUnwindFuel_succ_root {f : Nat} {led : Ledger} {g : B32} {L : Lookup}
    {ph x : B32} (h : parent_of_puzzle_hash g ph L = some (none, x)) :
    getUnwindFuel (f + 1) led g L ph = some ([], false) := by
  simp [getUnwindFuel, h]

theorem getUnwindFuel_succ_unknown {f : Nat} {led : Ledger} {g : B32} {L : Lookup}
    {ph : B32} {cs : CoinSpend} {nm : B32}
    (h : parent_of_puzzle_hash g ph L = some (some cs, nm))
    (hled : led cs.coin.name = .unknown) :
    getUnwindFuel (f + 1) led g L ph =
      (getUnwindFuel f led g L cs.coin.puzzle_hash).map (fun r => (cs :: r.1, r.2)) := by
  simp [getUnwindFuel, h, hled]

theorem getUnwindFuel_succ_unspent {f : Nat} {led : Ledger} {g : B32} {L : Lookup}
    {ph : B32} {cs : CoinSpend} {nm : B32}
    (h : parent_of_puzzle_hash g ph L = some (some cs, nm))
    (hled : led cs.coin.name = .unspent) :
    getUnwindFuel (f + 1) led g L ph = some ([cs], false) := by
  simp [getUnwindFuel, h, hled]

theorem getUnwindFuel_succ_spent {f : Nat} {led : Ledger} {g : B32} {L : Lookup}
    {ph : B32} {cs : CoinSpend} {nm : B32}
    (h : parent_of_puzzle_hash g ph L = some (some cs, nm))
    (hled : led cs.coin.name = .spent) :
    getUnwindFuel (f + 1) led g L ph = some ([], true) := by
  simp [getUnwindFuel, h, hled]

/-- No spend of an already-spent coin is ever returned by the walk: spends
are only collected in the `unknown` and `unspent` branches. -/
theorem getUnwindFuel_no_spent {f : Nat} {led : Ledger} {g : B32} {L : Lookup}
    {ph : B32} {l : List CoinSpend} {warned : Bool}
    (h : getUnwindFuel f led g L ph = some (l, warned)) :
    ∀ s ∈ l, led s.coin.name ≠ .spent := by
  induction f generalizing ph l warned with
  | zero => simp [getUnwindFuel] at h
  | succ f ih =>
    rcases hp : parent_of_puzzle_hash g ph L with _ | y
    · simp [getUnwindFuel, hp] at h
    · obtain ⟨sp, nm⟩ := y
      rcases sp with _ | cs
      · rw [getUnwindFuel_succ_root hp] at h
        simp at h
        obtain ⟨h1, _⟩ := h
        subst h1
        intro s hs; simp at hs
      · rcases hled : led cs.coin.name with _ | _ | _
        · rw [getUnwindFuel_succ_unknown hp hled] at h
          rcases hr : getUnwindFuel f led g L cs.coin.puzzle_hash with _ | r
          · rw [hr] at h; simp at h
          · obtain ⟨l', warned'⟩ := r
            rw [hr] at h
            simp at h
            obtain ⟨h1, _⟩ := h
            subst h1
            intro s hs
            rcases List.mem_cons.mp hs with h' | h'
            · subst h'; rw [hled]; intro hcon; cases hcon
            · exact ih hr s h'
        · rw [getUnwindFuel_succ_unspent hp hled] at h
          simp at h
          obtain ⟨h1, _⟩ := h
          subst h1
          intro s hs
          simp at hs
          subst hs
          rw [hled]; intro hcon; cases hcon
        · rw [getUnwindFuel_succ_spent hp hled] at h
          simp at h
          obtain ⟨h1, _⟩ := h
          subst h1
          intro s hs; simp at hs

/-- The walk returns an ancestor chain: consecutive spends satisfy
`spend.coin.parent_coin_info = next_spend.coin.name`, and the first returned
spend is the one `parent_of_puzzle_hash` resolves for the queried hash. -/
theorem getUnwindFuel_chain {f : Nat} {led : Ledger} {g : B32} {L : Lookup}
    {ph : B32} {l : List CoinSpend} {warned : Bool}
    (h : getUnwindFuel f led g L ph = some (l, warned)) :
    List.Chain' (fun a b => a.coin.parent_coin_info = b.coin.name) l ∧
      ∀ a ∈ l.head?, ∃ nm, parent_of_puzzle_hash g ph L = some (some a, nm) := by
  induction f generalizing ph l warned with
  | zero => simp [getUnwindFuel] at h
  | succ f ih =>
    rcases hp : parent_of_puzzle_hash g ph L with _ | y
    · simp [getUnwindFuel, hp] at h
    · obtain ⟨sp, nm⟩ := y
      rcases sp with _ | cs
      · rw [getUnwindFuel_succ_root hp] at h
        simp at h
        obtain ⟨h1, _⟩ := h
        subst h1
        exact ⟨List.chain'_nil, by simp⟩
      · rcases hled : led cs.coin.name with _ | _ | _
        · rw [getUnwindFuel_succ_unknown hp hled] at h
          rcases hr : getUnwindFuel f led g L cs.coin.puzzle_hash with _ | r
          · rw [hr] at h; simp at h
          · obtain ⟨l', warned'⟩ := r
            rw [hr] at h
            simp at h
            obtain ⟨h1, _⟩ := h
            subst h1
            obtain ⟨hchain, hhead⟩ := ih hr
            refine ⟨List.chain'_cons'.mpr ⟨?_, hchain⟩, ?_⟩
            · intro b hb
              obtain ⟨nm', hb'⟩ := hhead b hb
              obtain ⟨f', p, s, pci, hfe, hget, hrec, hcs, _⟩ := parentOfFuel_inv hp
              have hph : cs.coin.puzzle_hash = p.puzzle_hash := by rw [hcs]
              have hpci : cs.coin.parent_coin_info = pci := by rw [hcs]
              have hf' : keyValBound L + 1 = f' := by omega
              have hwrap : parent_of_puzzle_hash g cs.coin.puzzle_hash L = some (s, pci) := by
                rw [hph]
                show parentOfFuel (keyValBound L + 2) g p.puzzle_hash L = some (s, pci)
                exact parentOfFuel_mono_le (by omega) (hf' ▸ hrec)
              rw [hwrap] at hb'
              simp at hb'
              obtain ⟨hb1, hb2⟩ := hb'
              subst hb1
              obtain ⟨_, _, _, _, _, _, _, _, hnm⟩ := parentOfFuel_inv hwrap
              rw [hpci, hnm]
            · intro a ha
              simp at ha
              subst ha
              exact ⟨nm, rfl⟩
        · rw [getUnwindFuel_succ_unspent hp hled] at h
          simp at h
          obtain ⟨h1, _⟩ := h
          subst h1
          refine ⟨List.chain'_singleton _, ?_⟩
          intro a ha
          simp at ha
          subst ha
          exact ⟨nm, rfl⟩
        · rw [getUnwindFuel_succ_spent hp hled] at h
          simp at h
          obtain ⟨h1, _⟩ := h
          subst h1
          exact ⟨List.chain'_nil, by simp⟩

/-- On a rank-well-formed table the walk terminates: each iteration moves to
a puzzle hash of strictly larger rank, bounded by `keyValBound`. -/
theorem getUnwindFuel_isSome {L : Lookup} (hR : RankOK L) (led : Ledger) (g : B32)
    (f : Nat) : ∀ ph, keyValBound L + 2 ≤ f + rank ph → 1 ≤ f →
      (getUnwindFuel f led g L ph).isSome := by
  induction f with
  | zero => intro ph _ h1; omega
  | succ f ih =>
    intro ph hbound _
    rcases hget : lookupGet L ph with _ | p
    · rw [getUnwindFuel_succ_root (parent_of_puzzle_hash_none g hget)]
      rfl
    · have hmem := mem_of_lookupGet hget
      have hlt : rank ph < rank p.puzzle_hash := hR _ hmem
      have hub : rank p.puzzle_hash ≤ keyValBound L := rank_le_keyValBound hmem
      obtain ⟨s, pci, _, hp⟩ := parent_of_puzzle_hash_some g hR hget
      set cs : CoinSpend := ⟨⟨pci, p.puzzle_hash, if pci = g then 0 else p.amount⟩,
        p.puzzle, nilSolution⟩ with hcs
      have hp' : parent_of_puzzle_hash g ph L = some (some cs, cs.coin.name) := hp
      rcases hled : led cs.coin.name with _ | _ | _
      · rw [getUnwindFuel_succ_unknown hp' hled]
        have hrec : (getUnwindFuel f led g L cs.coin.puzzle_hash).isSome := by
          refine ih cs.coin.puzzle_hash ?_ (by omega)
          show keyValBound L + 2 ≤ f + rank p.puzzle_hash
          omega
        rcases hr : getUnwindFuel f led g L cs.coin.puzzle_hash with _ | r
        · rw [hr] at hrec; simp at hrec
        · simp
      · rw [getUnwindFuel_succ_unspent hp' hled]; rfl
      · rw [getUnwindFuel_succ_spent hp' hled]; rfl

/-- On tables built by `secure_the_bag` the total wrapper `get_unwind` always
returns (the walk cannot exhaust its fuel). -/
theorem get_unwind_isSome {L : Lookup} (hR : RankOK L) (led : Ledger) (g ph : B32) :
    (get_unwind led g L ph).isSome :=
  getUnwindFuel_isSome hR led g (keyValBound L + 2) ph (by omega) (by omega)

/-! ### The claims -/

/-- C1: for every parent lookup table built by `secure_the_bag`, every genesis
reference `g` and every puzzle hash `h`: if `h` has an entry `tc` in the table,
`parent_of_puzzle_hash` returns a spend of the parent coin together with a
coin identity equal to `hash(parent_identity, parent_predicate_hash, amount)`,
where `parent_identity` is the recursively resolved identity of the parent's
own parent and the amount folded in is `0` exactly when `parent_identity`
equals `g` and the parent's full summed amount otherwise; if `h` has no entry,
it returns no spend and `g` verbatim. -/
theorem parent_of_puzzle_hash_spec (f : Nat) (targets : List Target) (w : Nat)
    (r : B32) (L : Lookup) (hrun : secure_the_bag f targets w [] = some (r, L))
    (g h : B32) :
    (lookupGet L h = none → parent_of_puzzle_hash g h L = some (none, g)) ∧
    (∀ tc, lookupGet L h = some tc →
      ∃ s pci, parent_of_puzzle_hash g tc.puzzle_hash L = some (s, pci) ∧
        parent_of_puzzle_hash g h L =
          some (some ⟨⟨pci, tc.puzzle_hash, if pci = g then 0 else tc.amount⟩,
              tc.puzzle, nilSolution⟩,
            B32.coinHash pci tc.puzzle_hash (if pci = g then 0 else tc.amount))) := by
  have hR : RankOK L := RankOK_secure_the_bag (by intro e he; simp at he) hrun
  constructor
  · intro hnone
    exact parent_of_puzzle_hash_none g hnone
  · intro tc hget
    exact parent_of_puzzle_hash_some g hR hget

theorem parent_of_puzzle_hash_spec_witness :
    secure_the_bag 3 exTargets 2 [] = some (exRoot, exLookup) ∧
    lookupGet exLookup (B32.raw 1) = some exTC ∧
    (∃ s pci, parent_of_puzzle_hash exGenesis exTC.puzzle_hash exLookup = some (s, pci) ∧
      parent_of_puzzle_hash exGenesis (B32.raw 1) exLookup =
        some (some ⟨⟨pci, exTC.puzzle_hash,
            if pci = exGenesis then 0 else exTC.amount⟩, exTC.puzzle, nilSolution⟩,
          B32.coinHash pci exTC.puzzle_hash (if pci = exGenesis then 0 else exTC.amount))) :=
  ⟨by decide, by decide,
    (parent_of_puzzle_hash_spec 3 exTargets 2 exRoot exLookup (by decide) exGenesis
      (B32.raw 1)).2 exTC (by decide)⟩

/-- C2: the walk of `get_unwind` appends the resolved ancestor spend and
continues to its parent when the ancestor's coin is unknown to the ledger;
appends the spend and stops when the coin is unspent; stops without appending
when the coin is spent, returning normally with the warning flag instead of
raising; consequently a returned spend list never contains a spend of an
already-spent coin. -/
theorem get_unwind_spec (fuel : Nat) (led : Ledger) (g : B32) (L : Lookup)
    (ph : B32) (cs : CoinSpend) (nm : B32) :
    (parent_of_puzzle_hash g ph L = some (some cs, nm) →
      (led cs.coin.name = .unknown →
        getUnwindFuel (fuel + 1) led g L ph =
          (getUnwindFuel fuel led g L cs.coin.puzzle_hash).map
            (fun r => (cs :: r.1, r.2))) ∧
      (led cs.coin.name = .unspent →
        getUnwindFuel (fuel + 1) led g L ph = some ([cs], false)) ∧
      (led cs.coin.name = .spent →
        getUnwindFuel (fuel + 1) led g L ph = some ([], true))) ∧
    (∀ l warned, get_unwind led g L ph = some (l, warned) →
      ∀ s ∈ l, led s.coin.name ≠ .spent) := by
  constructor
  · intro hp
    exact ⟨fun hled => getUnwindFuel_succ_unknown hp hled,
      fun hled => getUnwindFuel_succ_unspent hp hled,
      fun hled => getUnwindFuel_succ_spent hp hled⟩
  · intro l warned h
    exact getUnwindFuel_no_spent h

theorem get_unwind_spec_witness :
    parent_of_puzzle_hash exGenesis (B32.raw 1) exLookup =
      some (some exCS, exCS.coin.name) ∧
    ledUnknown exCS.coin.name = CoinState.unknown ∧
    getUnwindFuel 5 ledUnknown exGenesis exLookup (B32.raw 1) =
      (getUnwindFuel 4 ledUnknown exGenesis exLookup exCS.coin.puzzle_hash).map
        (fun r => (exCS :: r.1, r.2)) :=
  ⟨by decide, rfl,
    ((get_unwind_spec 4 ledUnknown exGenesis exLookup (B32.raw 1) exCS
      exCS.coin.name).1 (by decide)).1 rfl⟩

/-- C6: the spend list returned by `unwind_the_bag` is the exact reversal of
the list produced by the upward walk of `get_unwind`, so it is ordered
root-first: each spend's coin is the parent of the next spend's coin (every
spend's coin precedes the spends of its descendants). -/
theorem unwind_the_bag_spec (led : Ledger) (tph g : B32) (L : Lookup)
    (l' : List CoinSpend) (h : unwind_the_bag led tph g L = some l') :
    (∃ l warned, get_unwind led g L tph = some (l, warned) ∧ l' = l.reverse) ∧
    List.Chain' (fun a b => b.coin.parent_coin_info = a.coin.name) l' := by
  rcases hg : get_unwind led g L tph with _ | r
  · rw [unwind_the_bag, hg] at h
    simp at h
  · obtain ⟨l, warned⟩ := r
    rw [unwind_the_bag, hg] at h
    simp at h
    subst h
    obtain ⟨hchain, _⟩ := getUnwindFuel_chain hg
    refine ⟨⟨l, warned, rfl, rfl⟩, ?_⟩
    exact List.chain'_reverse.mpr hchain

theorem unwind_the_bag_spec_witness :
    unwind_the_bag ledUnknown (B32.raw 1) exGenesis exLookup = some exUnwind ∧
    ((∃ l warned, get_unwind ledUnknown exGenesis exLookup (B32.raw 1) =
        some (l, warned) ∧ exUnwind = l.reverse) ∧
      List.Chain' (fun a b => b.coin.parent_coin_info = a.coin.name) exUnwind) :=
  ⟨by decide,
    unwind_the_bag_spec ledUnknown (B32.raw 1) exGenesis exLookup exUnwind (by decide)⟩

/-- C3, counterexample: as stated the claim is false.  With `leaf_width = 1`
and two targets every level rebatches the two targets into two fresh
single-element batches, producing again a list of two targets, so the
recursion of `secure_the_bag` never reaches the single-element base case: no
amount of fuel makes the run return. -/
theorem secure_the_bag_w1_diverges : ¬ stbTerminates w1Targets 1 [] := by
  rintro ⟨fuel, hf⟩
  rw [secure_the_bag_w1_len2 fuel w1Targets [] (by rfl)] at hf
  simp at hf

/-- C3, amended: for every nonempty list of targets and every fan-out width
`w ≥ 2`, `secure_the_bag` terminates (the recursion reaches the
single-element base case after finitely many levels); the degenerate width
`w = 1` and the empty target list are excluded, as the recursion then never
shrinks the list. -/
theorem secure_the_bag_terminates (targets : List Target) (w : Nat) (L : Lookup)
    (hw : 2 ≤ w) (hne : targets ≠ []) : stbTerminates targets w L :=
  ⟨targets.length,
    secure_the_bag_isSome targets.length targets w L hw
      (List.length_pos.mpr hne) le_rfl⟩

theorem secure_the_bag_terminates_witness :
    2 ≤ 2 ∧ exTargets ≠ [] ∧ stbTerminates exTargets 2 [] :=
  ⟨by decide, by decide, secure_the_bag_terminates exTargets 2 [] (by decide) (by decide)⟩

/-- C7: on a single-element target list `secure_the_bag` returns that
target's own puzzle hash as the root hash together with the lookup table it
was given, unchanged — no node is created and no entry is added; this is the
base case of the fold, not an error (the result is `some`, for any positive
fuel). -/
theorem secure_the_bag_single_target (f : Nat) (t : Target) (w : Nat) (L : Lookup) :
    secure_the_bag (f + 1) [t] w L = some (t.puzzle_hash, L) := rfl

/-- C8: the root puzzle hash is a deterministic function of the target
sequence and the width alone: any two invocations of `secure_the_bag` that
return, on equal targets and width — whatever lookup table they started from
and however much fuel they were given — return equal root puzzle hashes. -/
theorem secure_the_bag_deterministic (f1 f2 : Nat) (ts : List Target) (w : Nat)
    (L1 L2 : Lookup) (r1 r2 : B32) (L1' L2' : Lookup)
    (h1 : secure_the_bag f1 ts w L1 = some (r1, L1'))
    (h2 : secure_the_bag f2 ts w L2 = some (r2, L2')) : r1 = r2 := by
  have h1' : secure_the_bag (max f1 f2) ts w L1 = some (r1, L1') :=
    secure_the_bag_mono_le (le_max_left _ _) h1
  have h2' : secure_the_bag (max f1 f2) ts w L2 = some (r2, L2') :=
    secure_the_bag_mono_le (le_max_right _ _) h2
  have := secure_the_bag_fst_indep (max f1 f2) ts w L1 L2
  rw [h1', h2'] at this
  simpa using this

theorem secure_the_bag_deterministic_witness :
    secure_the_bag 3 exTargets 2 [] = some (exRoot, exLookup) ∧
    secure_the_bag 5 exTargets 2 exLookup = some (exRoot2, exLookup2) ∧
    exRoot = exRoot2 :=
  ⟨by decide, by decide,
    secure_the_bag_deterministic 3 5 exTargets 2 [] exLookup exRoot exRoot2
      exLookup exLookup2 (by decide) (by decide)⟩

/-- C9: for every nonempty list and every width `w ≥ 1`, `batch_the_bag`
returns consecutive batches whose concatenation is the input list in order;
every batch except possibly the last has exactly `w` elements, and every
batch (in particular the last) has between 1 and `w` elements. -/
theorem batch_the_bag_spec {α : Type} (ts : List α) (w : Nat) (hne : ts ≠ [])
    (hw : 1 ≤ w) :
    (batch_the_bag ts w).flatten = ts ∧
      (∀ b ∈ (batch_the_bag ts w).dropLast, b.length = w) ∧
      (∀ b ∈ batch_the_bag ts w, 1 ≤ b.length ∧ b.length ≤ w) := by
  have h := batchGo_spec w ts [] hne (by simpa using hw)
  simpa [batch_the_bag] using h

theorem batch_the_bag_spec_witness :
    exTargets ≠ [] ∧ 1 ≤ 2 ∧
    ((batch_the_bag exTargets 2).flatten = exTargets ∧
      (∀ b ∈ (batch_the_bag exTargets 2).dropLast, b.length = 2) ∧
      (∀ b ∈ batch_the_bag exTargets 2, 1 ≤ b.length ∧ b.length ≤ 2)) :=
  ⟨by decide, by decide, batch_the_bag_spec exTargets 2 (by decide) (by decide)⟩

/-- C4, counterexample: the claim is false on the code.  On `dupTargets` the
puzzle hash `raw 1` lands in the batch `[dupA, dupB]` and again in the batch
`[dupA, dupC]`, which have different parent programs; `secure_the_bag`
completes without any error (`isSome`), both assignments physically happened
(both pairs are in the table), and the lookup silently returns the parent of
the later batch: the first entry was overwritten, no fatal error was
raised, and the key does not have a single well-defined parent. -/
theorem secure_the_bag_overwrite_counterexample :
    (secure_the_bag 3 dupTargets 2 []).isSome = true ∧
    (B32.raw 1, dupParentAB) ∈ dupLookup ∧
    (B32.raw 1, dupParentAC) ∈ dupLookup ∧
    dupParentAB.puzzle_hash ≠ dupParentAC.puzzle_hash ∧
    lookupGet dupLookup (B32.raw 1) = some dupParentAC := by decide

/-- C4, amended: inserting an entry into the parent lookup table under a
predicate-hash key that is already present never raises an error: the
assignment is total and silently overwrites, after it the key maps to the new
parent coin and every other key is unchanged — so a predicate hash recorded
under two different parents ends up mapped to the most recently inserted one,
and only keys inserted once have a single well-defined parent. -/
theorem lookupSet_overwrites (L : Lookup) (k k' : B32) (v : TargetCoin)
    (h : k' ≠ k) :
    lookupGet (lookupSet L k v) k = some v ∧
    lookupGet (lookupSet L k v) k' = lookupGet L k' :=
  ⟨lookupGet_set_self L k v, lookupGet_set_other L k k' v h⟩

theorem lookupSet_overwrites_witness :
    B32.raw 2 ≠ B32.raw 1 ∧
    (lookupGet (lookupSet [(B32.raw 1, dupParentAB)] (B32.raw 1) dupParentAC)
        (B32.raw 1) = some dupParentAC ∧
      lookupGet (lookupSet [(B32.raw 1, dupParentAB)] (B32.raw 1) dupParentAC)
        (B32.raw 2) = lookupGet [(B32.raw 1, dupParentAB)] (B32.raw 2)) :=
  ⟨by decide,
    lookupSet_overwrites [(B32.raw 1, dupParentAB)] (B32.raw 1) (B32.raw 2)
      dupParentAC (by decide)⟩

/-- C5: for every batch processed by `secure_the_bag`, the constructed parent
predicate is the quoted condition list whose evaluation under any (trivial)
witness yields exactly one announce condition followed by one create-coin
condition per batch member, in the members' input order, each carrying the
member's puzzle hash and unchanged amount; and the parent target recorded for
each batch carries that program's tree hash and an amount equal to the sum of
the batch members' amounts. -/
theorem batch_predicate_spec (batches : List (List Target)) (L : Lookup)
    (b : List Target) (sol : Prog) (_hb : b ∈ batches) :
    Prog.run ⟨batchConditions b⟩ sol =
      EMPTY_COIN_ANNOUNCEMENT ::
        b.map (fun t => Cond.createCoin t.puzzle_hash t.amount [t.puzzle_hash]) ∧
    batchTotalAmount b = (b.map Target.amount).sum ∧
    (processBatchesLoop batches L).1 =
      batches.map (fun b' => (⟨Prog.get_tree_hash ⟨batchConditions b'⟩,
        batchTotalAmount b'⟩ : Target)) := by
  refine ⟨?_, batchTotalAmount_eq b, processBatchesLoop_fst batches L⟩
  show batchConditions b = _
  rw [batchConditions_eq]
  simp [EMPTY_COIN_ANNOUNCEMENT, Target.create_coin_condition]

theorem batch_predicate_spec_witness :
    [(⟨.raw 1, 10⟩ : Target), ⟨.raw 2, 20⟩] ∈ batch_the_bag exTargets 2 ∧
    (Prog.run ⟨batchConditions [(⟨.raw 1, 10⟩ : Target), ⟨.raw 2, 20⟩]⟩ nilSolution =
        EMPTY_COIN_ANNOUNCEMENT ::
          [(⟨.raw 1, 10⟩ : Target), ⟨.raw 2, 20⟩].map
            (fun t => Cond.createCoin t.puzzle_hash t.amount [t.puzzle_hash]) ∧
      batchTotalAmount [(⟨.raw 1, 10⟩ : Target), ⟨.raw 2, 20⟩] =
        ([(⟨.raw 1, 10⟩ : Target), ⟨.raw 2, 20⟩].map Target.amount).sum ∧
      (processBatchesLoop (batch_the_bag exTargets 2) []).1 =
        (batch_the_bag exTargets 2).map
          (fun b' => (⟨Prog.get_tree_hash ⟨batchConditions b'⟩,
            batchTotalAmount b'⟩ : Target))) :=
  ⟨by decide,
    batch_predicate_spec (batch_the_bag exTargets 2) []
      [⟨.raw 1, 10⟩, ⟨.raw 2, 20⟩] nilSolution (by decide)⟩

/-- C10: calls of `secure_the_bag` that omit `parent_puzzle_lookup` share one
mutable default dictionary (Python evaluates the `{}` default once, and the
function mutates it in place, so the dictionary's state after a call is the
returned table).  A second default-argument invocation therefore starts from
the table the first one returned: every key present after the first
invocation is still present in the second invocation's returned table.
Consequently the returned table is not a function of that call's arguments
alone: on the same second-call arguments, running after the `exTargets` call
yields a table still containing the first call's key `raw 1`, while running
with a fresh table does not. -/
theorem secure_the_bag_shared_default (f1 f2 : Nat) (ts1 ts2 : List Target)
    (w1 w2 : Nat) (r1 r2 : B32) (L1 L2 : Lookup)
    (_h1 : secure_the_bag f1 ts1 w1 [] = some (r1, L1))
    (h2 : secure_the_bag f2 ts2 w2 L1 = some (r2, L2)) :
    (∀ k, (lookupGet L1 k).isSome → (lookupGet L2 k).isSome) ∧
    (lookupGet exSharedTable (B32.raw 1)).isSome = true ∧
    lookupGet exFreshTable (B32.raw 1) = none :=
  ⟨fun k hk => secure_the_bag_lookup_mono h2 k hk, by decide, by decide⟩

theorem secure_the_bag_shared_default_witness :
    secure_the_bag 3 exTargets 2 [] = some (exRoot, exLookup) ∧
    secure_the_bag 2 exTs2 2 exLookup = some (exSharedRoot, exSharedTable) ∧
    ((∀ k, (lookupGet exLookup k).isSome → (lookupGet exSharedTable k).isSome) ∧
      (lookupGet exSharedTable (B32.raw 1)).isSome = true ∧
      lookupGet exFreshTable (B32.raw 1) = none) :=
  ⟨by decide, by decide,
    secure_the_bag_shared_default 3 2 exTargets exTs2 2 2 exRoot exSharedRoot
      exLookup exSharedTable (by decide) (by decide)⟩

end SecureTheMint
